import Mathlib

/-!
Verification of the osgrep indexing and search pipeline.

This file gives a shallow embedding, in Lean, of the parts of the osgrep
source that the specification's claims are about:

* `Osgrep.LocalStore` — the LanceDB-backed store (`LocalStore.uploadFile`,
  `LocalStore.deleteFile`): delete-predicate construction with quote
  escaping, per-file delete-then-insert, embedding batches of 16 and write
  batches of 50.
* `Osgrep.Utils` — the incremental sync (`indexFile`, `initialSync`):
  content-hash skip against the MetaStore, the empty-store override, the
  zero-byte guard, stale deletes.
* `Osgrep.Serve` — the HTTP `/search` handler's path-traversal validation.
* `Osgrep.WorkerManager` — the worker pool's mutex queue, retry policy and
  consecutive-recycle limit.

Effectful TypeScript (promises, worker IPC, the database) is embedded as
pure state-passing functions: store tables become `List VectorRecord`,
worker calls become injected functions with an explicit success/failure
switch, and the promise chain of the mutex queue becomes an explicit
schedule.  SHA-256 is not re-implemented; every definition that hashes is
parameterized by an arbitrary hash function `hashFn : String → String`,
which is all the control flow ever inspects.
-/

namespace Osgrep

namespace LocalStore

/-- The single-quote character, written via its code point so that the file
contains no quote literals. -/
def squote : Char := Char.ofNat 39

/-- Embedding of `filePath.replace(/'/g, "''")` from `LocalStore.deleteFile`
and `LocalStore.uploadFile`: every single quote is doubled. -/
def escapeQuotes : List Char → List Char
  | [] => []
  | c :: cs =>
    if c = squote then squote :: squote :: escapeQuotes cs
    else c :: escapeQuotes cs

/-- The `safePath` value computed in the source: the path with each quote
escaped. -/
def safePathOf (filePath : String) : String := String.mk (escapeQuotes filePath.data)

/-- A one-character string holding a single quote. -/
def sq : String := String.mk [squote]

/-- The delete predicate the source interpolates: `path = '<safePath>'`. -/
def deletePredicate (filePath : String) : String :=
  "path = " ++ sq ++ safePathOf filePath ++ sq

/-- SQL-style lexer for the body of a single-quoted string literal, given
the characters after the opening quote.  A doubled quote stands for one
quote inside the literal; a single quote closes it.  Returns the literal's
contents and the remaining input, or `none` if the literal never closes. -/
def scanLiteral : List Char → Option (List Char × List Char)
  | [] => none
  | c :: cs =>
    if c = squote then
      match cs with
      | [] => some ([], [])
      | c2 :: cs2 =>
        if c2 = squote then
          match scanLiteral cs2 with
          | some (lit, rest) => some (squote :: lit, rest)
          | none => none
        else some ([], cs)
    else
      match scanLiteral cs with
      | some (lit, rest) => some (c :: lit, rest)
      | none => none

/-- Parser for predicates of the exact shape `path = '<literal>'` (the only
shape the source ever passes to `table.delete`).  Yields the unescaped
literal when the whole input is consumed. -/
def parsePathEq (cs : List Char) : Option (List Char) :=
  match cs with
  | 'p' :: 'a' :: 't' :: 'h' :: ' ' :: '=' :: ' ' :: q :: rest =>
    if q = squote then
      match scanLiteral rest with
      | some (lit, []) => some lit
      | _ => none
    else none
  | _ => none

/-- A stored fragment row, after `LocalStore`'s `VectorRecord` (the opaque
uuid `id` field is omitted; no claim inspects it). -/
structure VectorRecord where
  path : String
  hash : String
  content : String
  start_line : Nat
  end_line : Nat
  vector : List Int
deriving Repr, DecidableEq

/-- Semantics of `table.delete(pred)` for the predicates the source builds:
rows whose `path` equals the predicate's literal are removed.  A predicate
that does not parse deletes nothing (never reached by the source). -/
def tableDelete (pred : String) (rows : List VectorRecord) : List VectorRecord :=
  match parsePathEq pred.data with
  | some lit => rows.filter (fun r => !(r.path == String.mk lit))
  | none => rows

/-- Embedding of `LocalStore.deleteFile`: escape the path and delete by the
interpolated predicate. -/
def deleteFile (filePath : String) (rows : List VectorRecord) : List VectorRecord :=
  tableDelete (deletePredicate filePath) rows

theorem scanLiteral_escape (p : List Char) :
    scanLiteral (escapeQuotes p ++ [squote]) = some (p, []) := by
  induction p with
  | nil => simp [escapeQuotes, scanLiteral]
  | cons c cs ih =>
    by_cases hc : c = squote
    · subst hc
      simp [escapeQuotes, scanLiteral, ih]
    · rw [escapeQuotes, if_neg hc, List.cons_append, scanLiteral.eq_def]
      simp [hc, ih]

theorem parse_deletePredicate (p : String) :
    parsePathEq (deletePredicate p).data = some p.data := by
  have hdata : (deletePredicate p).data =
      'p' :: 'a' :: 't' :: 'h' :: ' ' :: '=' :: ' ' :: squote ::
        (escapeQuotes p.data ++ [squote]) := by
    simp [deletePredicate, sq, safePathOf, String.data_append]
  rw [hdata]
  simp [parsePathEq, scanLiteral_escape]

/-- C9.  For every path string, including paths containing single quotes,
the escape-then-interpolate delete used by `LocalStore.deleteFile` (and,
with the same predicate construction, by the per-file delete inside
`LocalStore.uploadFile`) removes exactly the rows whose `path` field equals
the given string: the interpolated literal can never be broken out of. -/
theorem deleteFile_removes_exactly_path (p : String) (rows : List VectorRecord) :
    deleteFile p rows = rows.filter (fun r => !(r.path == p)) ∧
    tableDelete (deletePredicate p) rows = rows.filter (fun r => !(r.path == p)) := by
  have h : tableDelete (deletePredicate p) rows = rows.filter (fun r => !(r.path == p)) := by
    rw [tableDelete, parse_deletePredicate]
  exact ⟨h, h⟩

/-- A chunk produced by the `TreeSitterChunker`, as consumed by
`LocalStore.uploadFile`. -/
structure Chunk where
  content : String
  startLine : Nat
  endLine : Nat
deriving Repr, DecidableEq

/-- Tail of `chunkList`: slice a list into consecutive groups, flushing the
accumulator (kept reversed) once it holds `n` elements. -/
def chunkAux (n : Nat) : List α → List α → List (List α)
  | [], acc => if acc.isEmpty then [] else [acc.reverse]
  | x :: xs, acc =>
    let acc2 := x :: acc
    if acc2.length = n then acc2.reverse :: chunkAux n xs []
    else chunkAux n xs acc2

/-- Embedding of the slicing loop `for (let i = 0; i < xs.length; i += n)
... xs.slice(i, i + n)`: consecutive groups of `n` elements, the last group
possibly shorter.  Used with `n = 16` (`BATCH_SIZE`). -/
def chunkList (n : Nat) (l : List α) : List (List α) := chunkAux n l []

theorem chunkAux_sum_length (n : Nat) (l acc : List α) :
    ((chunkAux n l acc).map List.length).sum = l.length + acc.length := by
  induction l generalizing acc with
  | nil =>
    by_cases h : acc.isEmpty
    · simp [chunkAux, h, List.isEmpty_iff.mp h]
    · simp [chunkAux, h]
  | cons x xs ih =>
    by_cases h : acc.length + 1 = n
    · simp [chunkAux, h, ih]
      omega
    · simp [chunkAux, h, ih]
      omega

theorem chunkList_sum_length (n : Nat) (l : List α) :
    ((chunkList n l).map List.length).sum = l.length := by
  simpa using chunkAux_sum_length n l []

theorem chunkAux_mem_length (n : Nat) (l acc : List α) (hacc : acc.length < n) :
    ∀ b ∈ chunkAux n l acc, b.length ≤ n := by
  induction l generalizing acc with
  | nil =>
    intro b hb
    by_cases h : acc.isEmpty
    · simp [chunkAux, h] at hb
    · simp [chunkAux, h] at hb
      simp [hb, List.length_reverse]
      omega
  | cons x xs ih =>
    intro b hb
    by_cases h : acc.length + 1 = n
    · simp [chunkAux, h] at hb
      rcases hb with hb | hb
      · simp [hb]
        omega
      · exact ih [] (by simp; omega) b hb
    · simp [chunkAux, h] at hb
      exact ih (x :: acc) (by simp; omega) b hb

theorem chunkList_mem_length (n : Nat) (hn : 0 < n) (l : List α) :
    ∀ b ∈ chunkList n l, b.length ≤ n :=
  chunkAux_mem_length n l [] (by simpa using hn)

/-- The row `uploadFile` pushes for one chunk: path and hash come from
`options.metadata`, the span from the chunk, the vector from the worker's
reply (`embedVec` stands for the embedding model). -/
def mkRecord (p h : String) (embedVec : String → List Int) (c : Chunk) : VectorRecord :=
  ⟨p, h, c.content, c.startLine, c.endLine, embedVec c.content⟩

/-- Result of one `uploadFile` run.  `observable` lists the store contents
after each awaited write (`table.delete`, then each `table.add`) — the
states a concurrent reader of the table can see.  `embedCalls` records the
text batch of each `getEmbeddings` worker request.  `ok` is false when an
embedding batch rejected, which propagates out of `uploadFile`. -/
structure UploadOutcome where
  final : List VectorRecord
  observable : List (List VectorRecord)
  embedCalls : List (List String)
  ok : Bool
deriving Repr, DecidableEq

/-- The inner `for (j …)` loop body of `uploadFile`: push each record onto
`pendingWrites` and flush with `table.add` once `WRITE_BATCH_SIZE = 50`
rows have accumulated. -/
def writeRecords :
    List VectorRecord → List VectorRecord → List (List VectorRecord) →
    List VectorRecord →
    List VectorRecord × List VectorRecord × List (List VectorRecord)
  | store, pending, obs, [] => (store, pending, obs)
  | store, pending, obs, r :: rs =>
    let pend := pending ++ [r]
    if 50 ≤ pend.length then writeRecords (store ++ pend) [] (obs ++ [store ++ pend]) rs
    else writeRecords store pend obs rs

/-- The batch loop of `uploadFile`: for the `i`-th batch of 16 chunks, call
`getEmbeddings` on its texts (`embedOk i` tells whether that worker request
resolves); on success push the records, on rejection abort the whole
upload, leaving the store as already written. -/
def runBatches (embedOk : Nat → Bool) (embedVec : String → List Int) (p h : String) :
    Nat → List VectorRecord → List VectorRecord → List (List VectorRecord) →
    List (List String) → List (List Chunk) → UploadOutcome
  | _, store, pending, obs, calls, [] =>
    if pending.isEmpty then ⟨store, obs, calls, true⟩
    else ⟨store ++ pending, obs ++ [store ++ pending], calls, true⟩
  | i, store, pending, obs, calls, b :: bs =>
    let calls2 := calls ++ [b.map (fun c => c.content)]
    if embedOk i then
      match writeRecords store pending obs (b.map (mkRecord p h embedVec)) with
      | (store2, pending2, obs2) =>
        runBatches embedOk embedVec p h (i + 1) store2 pending2 obs2 calls2 bs
    else ⟨store, obs, calls2, false⟩

/-- Embedding of `LocalStore.uploadFile` (content already resolved, as when
the sync passes `options.content`): delete the existing rows for the path
(guarded by `safePath` being truthy, i.e. the path non-empty), chunk —
`chunks` is the chunker's output for this content — and, unless the chunk
list is empty, embed in batches of 16 and insert in write batches of 50. -/
def uploadFile (embedOk : Nat → Bool) (embedVec : String → List Int)
    (store : List VectorRecord) (p h : String) (chunks : List Chunk) : UploadOutcome :=
  let store1 := if p = "" then store else tableDelete (deletePredicate p) store
  let obs0 := if p = "" then [] else [store1]
  if chunks = [] then ⟨store1, obs0, [], true⟩
  else runBatches embedOk embedVec p h 0 store1 [] obs0 [] (chunkList 16 chunks)

theorem writeRecords_obs_mono (rs : List VectorRecord) :
    ∀ store pending obs, ∃ t,
      (writeRecords store pending obs rs).2.2 = obs ++ t := by
  induction rs with
  | nil =>
    intro store pending obs
    exact ⟨[], by simp [writeRecords]⟩
  | cons r rs ih =>
    intro store pending obs
    by_cases h : 49 ≤ pending.length
    · obtain ⟨t, ht⟩ := ih (store ++ (pending ++ [r])) []
        (obs ++ [store ++ (pending ++ [r])])
      exact ⟨[store ++ (pending ++ [r])] ++ t, by simp [writeRecords, h, ht]⟩
    · obtain ⟨t, ht⟩ := ih store (pending ++ [r]) obs
      exact ⟨t, by simp [writeRecords, h, ht]⟩

theorem runBatches_obs_mono (embedOk : Nat → Bool) (embedVec : String → List Int)
    (p h : String) (bs : List (List Chunk)) :
    ∀ i store pending obs calls, ∃ t,
      (runBatches embedOk embedVec p h i store pending obs calls bs).observable = obs ++ t := by
  induction bs with
  | nil =>
    intro i store pending obs calls
    by_cases hp : pending = []
    · exact ⟨[], by simp [runBatches, hp]⟩
    · exact ⟨[store ++ pending], by simp [runBatches, hp]⟩
  | cons b bs ih =>
    intro i store pending obs calls
    by_cases he : embedOk i
    · obtain ⟨t1, ht1⟩ := writeRecords_obs_mono (b.map (mkRecord p h embedVec)) store pending obs
      obtain ⟨t2, ht2⟩ := ih (i + 1)
        (writeRecords store pending obs (b.map (mkRecord p h embedVec))).1
        (writeRecords store pending obs (b.map (mkRecord p h embedVec))).2.1
        (writeRecords store pending obs (b.map (mkRecord p h embedVec))).2.2
        (calls ++ [b.map (fun c => c.content)])
      refine ⟨t1 ++ t2, ?_⟩
      rw [runBatches, if_pos he]
      rw [show (writeRecords store pending obs (b.map (mkRecord p h embedVec))) =
        ((writeRecords store pending obs (b.map (mkRecord p h embedVec))).1,
         (writeRecords store pending obs (b.map (mkRecord p h embedVec))).2.1,
         (writeRecords store pending obs (b.map (mkRecord p h embedVec))).2.2) from rfl]
      rw [ht2, ht1, List.append_assoc]
    · exact ⟨[], by simp [runBatches, he]⟩

theorem chunkAux_ne_nil (n : Nat) (l acc : List α) (h : ¬(l = [] ∧ acc = [])) :
    chunkAux n l acc ≠ [] := by
  induction l generalizing acc with
  | nil =>
    have hacc : acc ≠ [] := fun hc => h ⟨rfl, hc⟩
    simp [chunkAux, hacc]
  | cons x xs ih =>
    by_cases hlen : acc.length + 1 = n
    · simp [chunkAux, hlen]
    · simp [chunkAux, hlen]
      exact ih (x :: acc) (by simp)

/-- C1 (amended).  In `LocalStore.uploadFile` the `table.delete` for the
path strictly precedes every insert — the first store state any observer
can see is the old table with the path's rows removed — but the sequence is
not one transaction: if the first embedding batch rejects, the upload
aborts with the old rows already deleted and no new rows written, so the
previously existing rows are not left intact. -/
theorem uploadFile_delete_precedes_inserts (embedOk : Nat → Bool)
    (embedVec : String → List Int) (store : List VectorRecord)
    (p h : String) (chunks : List Chunk) (hp : p ≠ "") :
    ((uploadFile embedOk embedVec store p h chunks).observable.head? =
      some (tableDelete (deletePredicate p) store)) ∧
    (embedOk 0 = false → chunks ≠ [] →
      (uploadFile embedOk embedVec store p h chunks).ok = false ∧
      (uploadFile embedOk embedVec store p h chunks).final =
        tableDelete (deletePredicate p) store) := by
  by_cases hc : chunks = []
  · subst hc
    refine ⟨by simp [uploadFile, hp], fun _ hne => absurd rfl hne⟩
  · have hbatch : chunkList 16 chunks ≠ [] :=
      chunkAux_ne_nil 16 chunks [] (fun hb => hc hb.1)
    obtain ⟨b, bs, hbs⟩ := List.exists_cons_of_ne_nil hbatch
    constructor
    · rw [uploadFile]
      simp only [hp, if_neg, ite_false, hc]
      obtain ⟨t, ht⟩ := runBatches_obs_mono embedOk embedVec p h (chunkList 16 chunks)
        0 (tableDelete (deletePredicate p) store) []
        [tableDelete (deletePredicate p) store] []
      rw [ht]
      rfl
    · intro hfail hne
      rw [uploadFile]
      simp only [hp, ite_false, hc, if_neg, hbs]
      rw [runBatches, if_neg (by simp [hfail])]
      exact ⟨rfl, rfl⟩

/-- C1 counterexample.  A store holding one old row for `a.ts` is
re-indexed; the embedding worker request rejects (mid-pipeline failure).
The failed run ends with zero rows for `a.ts`: the previously existing row
was not left intact, refuting the claim's failure-atomicity. -/
theorem uploadFile_midPipelineFailure_losesOldRows :
    (uploadFile (fun _ => false) (fun _ => [])
        [⟨"a.ts", "h0", "old", 0, 1, []⟩] "a.ts" "h1" [⟨"newText", 0, 1⟩]).ok = false ∧
    (uploadFile (fun _ => false) (fun _ => [])
        [⟨"a.ts", "h0", "old", 0, 1, []⟩] "a.ts" "h1" [⟨"newText", 0, 1⟩]).final = [] := by
  decide

/-- Closed instance of the C1 theorem: a failing re-index of a one-row
store observes the delete first and ends with the delete's result. -/
theorem uploadFile_delete_precedes_inserts_witness :
    ((uploadFile (fun _ => false) (fun _ => [])
        [⟨"w.ts", "h0", "old", 0, 1, []⟩] "w.ts" "h1" [⟨"t", 0, 1⟩]).observable.head? =
      some (tableDelete (deletePredicate "w.ts") [⟨"w.ts", "h0", "old", 0, 1, []⟩])) ∧
    ((uploadFile (fun _ => false) (fun _ => [])
        [⟨"w.ts", "h0", "old", 0, 1, []⟩] "w.ts" "h1" [⟨"t", 0, 1⟩]).ok = false) := by
  have h := uploadFile_delete_precedes_inserts (fun _ => false) (fun _ => [])
    [⟨"w.ts", "h0", "old", 0, 1, []⟩] "w.ts" "h1" [⟨"t", 0, 1⟩] (by decide)
  exact ⟨h.1, (h.2 rfl (by decide)).1⟩

theorem runBatches_embedCalls_allOk (embedVec : String → List Int) (p h : String)
    (bs : List (List Chunk)) :
    ∀ i store pending obs calls,
      (runBatches (fun _ => true) embedVec p h i store pending obs calls bs).embedCalls =
        calls ++ bs.map (fun b => b.map (fun c => c.content)) := by
  induction bs with
  | nil =>
    intro i store pending obs calls
    by_cases hp : pending = [] <;> simp [runBatches, hp]
  | cons b bs ih =>
    intro i store pending obs calls
    rw [runBatches, if_pos rfl]
    rw [show (writeRecords store pending obs (b.map (mkRecord p h embedVec))) =
      ((writeRecords store pending obs (b.map (mkRecord p h embedVec))).1,
       (writeRecords store pending obs (b.map (mkRecord p h embedVec))).2.1,
       (writeRecords store pending obs (b.map (mkRecord p h embedVec))).2.2) from rfl]
    rw [ih]
    simp

/-- C6 (amended).  `LocalStore.uploadFile` performs no text deduplication:
the embedder is invoked on every fragment text of the file, duplicates
included — the texts sent across all `getEmbeddings` batches number exactly
the file's fragment count — and each worker batch holds at most
`BATCH_SIZE = 16` texts. -/
theorem uploadFile_embeds_every_fragment_text (embedVec : String → List Int)
    (store : List VectorRecord) (p h : String) (chunks : List Chunk) :
    (((uploadFile (fun _ => true) embedVec store p h chunks).embedCalls.map
        List.length).sum = chunks.length) ∧
    (∀ b ∈ (uploadFile (fun _ => true) embedVec store p h chunks).embedCalls,
      b.length ≤ 16) := by
  by_cases hc : chunks = []
  · subst hc
    simp [uploadFile]
  · rw [uploadFile]
    simp only [hc, ite_false, if_neg]
    rw [runBatches_embedCalls_allOk]
    constructor
    · rw [List.nil_append]
      have hsum := chunkList_sum_length 16 chunks
      calc (((chunkList 16 chunks).map
              (fun b => b.map (fun c => c.content))).map List.length).sum
          = ((chunkList 16 chunks).map List.length).sum := by
            rw [List.map_map]
            congr 1
            apply List.map_congr_left
            intro b _
            simp
        _ = chunks.length := hsum
    · intro b hb
      rw [List.nil_append] at hb
      simp only [List.mem_map] at hb
      obtain ⟨bb, hbb, rfl⟩ := hb
      have := chunkList_mem_length 16 (by omega) chunks bb hbb
      simpa using this

/-- Closed instance of the C6 theorem: a one-fragment file sends exactly
one text to the embedder, in a batch of size at most 16. -/
theorem uploadFile_embeds_every_fragment_text_witness :
    (((uploadFile (fun _ => true) (fun _ => []) [] "c.ts" "h"
        [⟨"t1", 0, 1⟩]).embedCalls.map List.length).sum = 1) ∧
    (∀ b ∈ (uploadFile (fun _ => true) (fun _ => []) [] "c.ts" "h"
        [⟨"t1", 0, 1⟩]).embedCalls, b.length ≤ 16) :=
  uploadFile_embeds_every_fragment_text (fun _ => []) [] "c.ts" "h" [⟨"t1", 0, 1⟩]

/-- C6 counterexample.  A file with two fragments sharing one text: the
upload sends two texts to the embedder, while the claim's bound (one
embedding per distinct text) allows at most one. -/
theorem uploadFile_duplicateTexts_embeddedTwice :
    (((uploadFile (fun _ => true) (fun _ => []) [] "b.ts" "h"
        [⟨"dup", 0, 1⟩, ⟨"dup", 1, 2⟩]).embedCalls.map List.length).sum = 2) ∧
    ((([⟨"dup", 0, 1⟩, ⟨"dup", 1, 2⟩] : List Chunk).map
        (fun c => c.content)).dedup.length = 1) ∧
    ¬(2 ≤ 1) := by
  decide

end LocalStore

namespace Utils

/-- A file on disk, as the sync sees it: its absolute path and its bytes
(a zero-byte file has `content = ""`). -/
structure SyncFile where
  path : String
  content : String
deriving Repr, DecidableEq

/-- MetaStore contents: the JSON map `path → hash`, as an association list
queried with `List.lookup`. -/
def MetaMap := List (String × String)
deriving Repr, DecidableEq

/-- Embedding of `MetaStore.set` (JS object assignment): the new binding
shadows and replaces any previous one for the path. -/
def metaSet (m : MetaMap) (k v : String) : MetaMap :=
  (k, v) :: List.filter (fun kv => !(kv.1 == k)) m

/-- Embedding of `MetaStore.delete`. -/
def metaDelete (m : MetaMap) (k : String) : MetaMap :=
  List.filter (fun kv => !(kv.1 == k)) m

/-- Outcome of one `indexFile` call: whether `store.indexFile` was invoked
(the call that chunks, embeds and writes rows downstream), the returned
`didIndex` flag, and the MetaStore afterwards. -/
structure IndexFileResult where
  storeIndexCalled : Bool
  didIndex : Bool
  meta : MetaMap
deriving Repr, DecidableEq

/-- Shared tail of `indexFile` once `buffer` and `hash` are in hand: skip
when the MetaStore already records this hash, otherwise call
`store.indexFile` and record the new hash. -/
def indexFileAfterRead (meta : MetaMap) (filePath hash : String) : IndexFileResult :=
  if List.lookup filePath meta = some hash then ⟨false, false, meta⟩
  else ⟨true, true, metaSet meta filePath hash⟩

/-- Embedding of `indexFile` from `src/utils.ts`.  `pre` carries the
`preComputedBuffer`/`preComputedHash` pair when the caller read the file
itself.  The zero-byte early return sits inside the `else` branch of the
source's `if (preComputedBuffer && preComputedHash)`, so it runs only when
no precomputed pair was passed. -/
def indexFile (meta : MetaMap) (filePath onDisk : String)
    (pre : Option (String × String)) (hashFn : String → String) : IndexFileResult :=
  match pre with
  | some (_, hash) => indexFileAfterRead meta filePath hash
  | none =>
    if onDisk.length = 0 then ⟨false, false, meta⟩
    else indexFileAfterRead meta filePath (hashFn onDisk)

/-- One iteration of `initialSync`'s per-file loop (MetaStore present,
`dryRun = false`): read the bytes, hash them, decide `shouldIndex`, and on
yes call `indexFile` with the precomputed buffer and hash. -/
def syncFileStep (storeIsEmpty : Bool) (hashFn : String → String)
    (meta : MetaMap) (f : SyncFile) : IndexFileResult :=
  let hash := hashFn f.content
  let existingHash := List.lookup f.path meta
  let shouldIndex := storeIsEmpty || existingHash.isNone || existingHash != some hash
  if shouldIndex then indexFile meta f.path f.content (some (f.content, hash)) hashFn
  else ⟨false, false, meta⟩

/-- Aggregate result of an `initialSync` run over the disk files. -/
structure SyncRunResult where
  stale : List String
  meta : MetaMap
  storeIndexCalls : Nat
  indexed : Nat
deriving Repr, DecidableEq

/-- The per-file loop of `initialSync`, threading the MetaStore and the
two counters (`store.indexFile` invocations, `indexed`). -/
def syncFold (storeIsEmpty : Bool) (hashFn : String → String) :
    MetaMap × Nat × Nat → List SyncFile → MetaMap × Nat × Nat
  | acc, [] => acc
  | acc, f :: fs =>
    let r := syncFileStep storeIsEmpty hashFn acc.1 f
    syncFold storeIsEmpty hashFn
      (r.meta, acc.2.1 + (if r.storeIndexCalled then 1 else 0),
        acc.2.2 + (if r.didIndex then 1 else 0)) fs

/-- Embedding of `initialSync` from `src/utils.ts` (MetaStore present,
`dryRun = false`; the bounded-concurrency pool is modelled as sequential
processing, which the per-file skip decision does not depend on):
compute the stale store paths, delete them from store and MetaStore, apply
the post-stale-delete `storeIsEmpty` update, then run the per-file loop. -/
def initialSync (dbPaths : List String) (files : List SyncFile)
    (meta0 : MetaMap) (hashFn : String → String) : SyncRunResult :=
  let diskPaths := files.map (fun f => f.path)
  let stale := dbPaths.filter (fun p => !(diskPaths.contains p))
  let meta1 := stale.foldl (fun m p => metaDelete m p) meta0
  let storeIsEmpty0 := dbPaths.isEmpty
  let storeIsEmpty := if !storeIsEmpty0 then decide (dbPaths.length - stale.length ≤ 0)
    else storeIsEmpty0
  let out := syncFold storeIsEmpty hashFn (meta1, 0, 0) files
  ⟨stale, out.1, out.2.1, out.2.2⟩

theorem syncFileStep_hashMatch (e : Bool) (hashFn : String → String)
    (meta : MetaMap) (f : SyncFile)
    (h : List.lookup f.path meta = some (hashFn f.content)) :
    syncFileStep e hashFn meta f = ⟨false, false, meta⟩ := by
  cases e <;>
    simp [syncFileStep, indexFile, indexFileAfterRead, h]

theorem syncFold_hashMatch (e : Bool) (hashFn : String → String)
    (files : List SyncFile) :
    ∀ (meta : MetaMap) (a b : Nat),
      (∀ f ∈ files, List.lookup f.path meta = some (hashFn f.content)) →
      syncFold e hashFn (meta, a, b) files = (meta, a, b) := by
  induction files with
  | nil => intro meta a b _; rfl
  | cons f fs ih =>
    intro meta a b hmeta
    rw [syncFold]
    rw [show syncFileStep e hashFn (meta, a, b).1 f = ⟨false, false, meta⟩ from
      syncFileStep_hashMatch e hashFn meta f (hmeta f (by simp))]
    simpa using ih meta a b (fun g hg => hmeta g (by simp [hg]))

/-- C3.  A second `initialSync` over an unchanged filesystem is a no-op on
the indexing side: the store is non-empty, every store path is still on
disk (no stale deletes), and the MetaStore's recorded hash equals every
file's freshly computed hash, so every file is skipped — zero
`store.indexFile` invocations (hence zero chunker invocations, zero worker
requests, zero row writes), zero files indexed, and the MetaStore
untouched. -/
theorem initialSync_secondRun_noop (dbPaths : List String) (files : List SyncFile)
    (meta : MetaMap) (hashFn : String → String)
    (hdb : dbPaths ≠ [])
    (hcover : ∀ p ∈ dbPaths, p ∈ files.map (fun f => f.path))
    (hmeta : ∀ f ∈ files, List.lookup f.path meta = some (hashFn f.content)) :
    (initialSync dbPaths files meta hashFn).stale = [] ∧
    (initialSync dbPaths files meta hashFn).storeIndexCalls = 0 ∧
    (initialSync dbPaths files meta hashFn).indexed = 0 ∧
    (initialSync dbPaths files meta hashFn).meta = meta := by
  have hstale : dbPaths.filter
      (fun p => !((files.map (fun f => f.path)).contains p)) = [] := by
    rw [List.filter_eq_nil_iff]
    intro p hp
    simpa using hcover p hp
  rw [initialSync]
  simp only [hstale]
  have hne : dbPaths.isEmpty = false := by
    simpa [List.isEmpty_iff] using hdb
  have hlen : 0 < dbPaths.length := List.length_pos.mpr hdb
  simp only [hne, List.foldl_nil, Bool.not_false, if_true, List.length_nil,
    Nat.sub_zero]
  rw [show decide (dbPaths.length ≤ 0) = false by simpa using Nat.not_le.mpr hlen]
  rw [syncFold_hashMatch false hashFn files meta 0 0 hmeta]
  exact ⟨trivial, rfl, rfl, rfl⟩

/-- Closed instance of the C3 theorem: one unchanged file, matching
MetaStore hash, non-empty store — the second sync indexes nothing. -/
theorem initialSync_secondRun_noop_witness :
    (initialSync ["/r/a.ts"] [⟨"/r/a.ts", "code"⟩]
        [("/r/a.ts", "H:code")] (fun s => "H:" ++ s)).storeIndexCalls = 0 ∧
    (initialSync ["/r/a.ts"] [⟨"/r/a.ts", "code"⟩]
        [("/r/a.ts", "H:code")] (fun s => "H:" ++ s)).indexed = 0 := by
  have h := initialSync_secondRun_noop ["/r/a.ts"] [⟨"/r/a.ts", "code"⟩]
    [("/r/a.ts", "H:code")] (fun s => "H:" ++ s)
    (by decide) (by decide) (by decide)
  exact ⟨h.2.1, h.2.2.1⟩

/-- The auto-sync trigger in the `search` command:
`options.sync || (await isStoreEmpty(store, storeId))`. -/
def autoSync (syncFlag storeEmpty : Bool) : Bool := syncFlag || storeEmpty

/-- C2 (code bug).  Data directory deleted after setup: the store is empty
(`dbPaths = []`) while the MetaStore still maps every repository file to
its current content hash.  The `search` command does auto-trigger a sync
(`autoSync false true = true`), and `initialSync` sets `storeIsEmpty`,
forcing `shouldIndex` for every file — but `indexFile` re-checks the
MetaStore and returns early on the matching hash, so zero files are
re-indexed, zero `store.indexFile` calls occur, and the store stays empty:
the subsequent search cannot return results, contradicting the claimed
behaviour. -/
theorem initialSync_emptyStore_staleMeta_indexesNothing (files : List SyncFile)
    (meta : MetaMap) (hashFn : String → String)
    (hmeta : ∀ f ∈ files, List.lookup f.path meta = some (hashFn f.content)) :
    autoSync false true = true ∧
    (initialSync [] files meta hashFn).storeIndexCalls = 0 ∧
    (initialSync [] files meta hashFn).indexed = 0 ∧
    (initialSync [] files meta hashFn).meta = meta := by
  have hrw := syncFold_hashMatch true hashFn files meta 0 0 hmeta
  refine ⟨rfl, ?_, ?_, ?_⟩
  · show (syncFold true hashFn (meta, 0, 0) files).2.1 = 0
    rw [hrw]
  · show (syncFold true hashFn (meta, 0, 0) files).2.2 = 0
    rw [hrw]
  · show (syncFold true hashFn (meta, 0, 0) files).1 = meta
    rw [hrw]

/-- Closed instance of the C2 theorem at the failing input: one repository
file whose MetaStore hash is current, empty store — the triggered sync
performs zero `store.indexFile` calls. -/
theorem initialSync_emptyStore_staleMeta_witness :
    autoSync false true = true ∧
    (initialSync [] [⟨"/r/a.ts", "code"⟩]
        [("/r/a.ts", "H:code")] (fun s => "H:" ++ s)).storeIndexCalls = 0 := by
  have h := initialSync_emptyStore_staleMeta_indexesNothing
    [⟨"/r/a.ts", "code"⟩] [("/r/a.ts", "H:code")] (fun s => "H:" ++ s) (by decide)
  exact ⟨h.1, h.2.1⟩

/-- C8 (code bug).  `initialSync` reads each file's bytes itself and passes
`preComputedBuffer`/`preComputedHash` to `indexFile`, which puts the
zero-byte early return in dead code for the sync pipeline: a zero-byte file
not recorded in the MetaStore (or recorded under a different hash) is NOT
skipped — `store.indexFile` is invoked on the empty content.  The second
conjunct shows the guard that was bypassed: the same `indexFile` with no
precomputed pair does skip the empty file. -/
theorem initialSync_zeroByteFile_notSkipped (e : Bool) (meta : MetaMap)
    (hashFn : String → String) (p : String)
    (h : List.lookup p meta ≠ some (hashFn "")) :
    (syncFileStep e hashFn meta ⟨p, ""⟩).storeIndexCalled = true ∧
    (syncFileStep e hashFn meta ⟨p, ""⟩).didIndex = true ∧
    (indexFile meta p "" none hashFn).storeIndexCalled = false := by
  refine ⟨?_, ?_, by simp [indexFile]⟩ <;>
  · rw [syncFileStep]
    simp only [indexFile, indexFileAfterRead, if_neg h]
    rcases hl : List.lookup p meta with _ | v
    · simp [hl]
    · have hv : ¬((some v : Option String) = some (hashFn "")) := by
        rw [← hl]; exact h
      simp [hl, if_neg h, bne_iff_ne, hv]

/-- Closed instance of the C8 theorem: a fresh zero-byte file under an
empty MetaStore is passed to `store.indexFile` by the sync pipeline. -/
theorem initialSync_zeroByteFile_notSkipped_witness :
    (syncFileStep false (fun s => "H:" ++ s) [] ⟨"/r/empty.txt", ""⟩).storeIndexCalled
      = true ∧
    (indexFile [] "/r/empty.txt" "" none (fun s => "H:" ++ s)).storeIndexCalled
      = false := by
  have h := initialSync_zeroByteFile_notSkipped false [] (fun s => "H:" ++ s)
    "/r/empty.txt" (by decide)
  exact ⟨h.1, h.2.2⟩

end Utils

namespace Serve

/-- Character-level splitter on `/`, accumulating the current segment in
reverse. -/
def splitAux : List Char → List Char → List String
  | [], cur => [String.mk cur.reverse]
  | c :: cs, cur =>
    if c = '/' then String.mk cur.reverse :: splitAux cs []
    else splitAux cs (c :: cur)

/-- Split a POSIX path into segments on `/` (the platform separator of the
embedded server). -/
def splitSegs (s : String) : List String := splitAux s.data []

/-- Join segments back with `/`. -/
def joinSegs : List String → String
  | [] => ""
  | [s] => s
  | s :: rest => s ++ "/" ++ joinSegs rest

/-- String prefix test (JS `String.prototype.startsWith`). -/
def strStartsWith (s pre : String) : Bool := List.isPrefixOf pre.data s.data

/-- Segment-level normalization shared by `path.normalize` and
`path.resolve` on absolute POSIX paths: drop empty and `.` segments, let
`..` pop the latest segment (clamping at the root). -/
def normStack (acc : List String) : List String → List String
  | [] => acc.reverse
  | seg :: rest =>
    if seg = "" || seg = "." then normStack acc rest
    else if seg = ".." then normStack acc.tail rest
    else normStack (seg :: acc) rest

/-- Resolution of an absolute path string: `path.resolve` (and
`path.normalize`, which it subsumes on absolute inputs) as used by the
`/search` handler. -/
def resolveAbs (s : String) : String :=
  "/" ++ joinSegs (normStack [] (splitSegs s))

/-- The `searchPath` IIFE of the `/search` handler: an empty or missing
`body.path` falls back to the repository root; otherwise the path is
joined to the root when relative, resolved, and compared against the
resolved root, throwing on traversal outside it. -/
def searchPathCheck (root bodyPath : String) : Except String String :=
  if bodyPath = "" then .ok root
  else
    let normalized := if strStartsWith bodyPath "/" then bodyPath
      else root ++ "/" ++ bodyPath
    let resolvedRoot := resolveAbs root
    let resolvedPath := resolveAbs normalized
    if !(strStartsWith resolvedPath (resolvedRoot ++ "/")) && resolvedPath != resolvedRoot
    then .error "Access denied: path outside repository root"
    else .ok resolvedPath

/-- What the `/search` request handler does after body parsing, as far as
the path parameter decides it: the HTTP status sent and whether
`store.search` was invoked.  A throw from `searchPathCheck` lands in the
handler's catch block, which responds 500 before any store access. -/
structure SearchHandlerOutcome where
  status : Nat
  storeSearched : Bool
deriving Repr, DecidableEq

/-- The `/search` handler's control flow around the path validation (query
present and well-formed, store search succeeding when reached). -/
def searchHandler (root bodyPath : String) : SearchHandlerOutcome :=
  match searchPathCheck root bodyPath with
  | .error _ => ⟨500, false⟩
  | .ok _ => ⟨200, true⟩

/-- C7.  Every `/search` request whose `path` parameter resolves to a
location outside the repository root — the resolved path is neither the
resolved root nor under it — is answered with an error status and performs
no store search. -/
theorem searchHandler_rejects_path_traversal (root bodyPath : String)
    (hne : bodyPath ≠ "")
    (houtside :
      resolveAbs (if strStartsWith bodyPath "/" then bodyPath
          else root ++ "/" ++ bodyPath) ≠ resolveAbs root ∧
      strStartsWith (resolveAbs (if strStartsWith bodyPath "/" then bodyPath
          else root ++ "/" ++ bodyPath)) (resolveAbs root ++ "/") = false) :
    searchHandler root bodyPath = ⟨500, false⟩ := by
  rw [searchHandler, searchPathCheck, if_neg hne]
  simp only [houtside.2, Bool.not_false, Bool.true_and, if_pos]
  rw [if_pos (by simp [bne_iff_ne, houtside.1])]

/-- Closed instance of the C7 theorem (scenario S6): a request with
`path = "../../etc"` against root `/home/user/repo` resolves to
`/home/etc`, is outside the root, and is rejected with no store search. -/
theorem searchHandler_rejects_path_traversal_witness :
    searchHandler "/home/user/repo" "../../etc" = ⟨500, false⟩ :=
  searchHandler_rejects_path_traversal "/home/user/repo" "../../etc"
    (by decide) (by constructor <;> decide)

end Serve

namespace WorkerManager

/-- Source constant: one automatic retry per request in
`sendToWorkerUnqueued`. -/
def MAX_RETRIES : Nat := 1

/-- Embedding of the retry loop of `sendToWorkerUnqueued`
(`for (attempt = 0; attempt <= MAX_RETRIES; attempt++)`): `attempt n` is
the outcome of the n-th `attemptWorkerRequest`; the pair's second component
counts how many attempts were made before returning. -/
def sendToWorkerUnqueued (attempt : Nat → Except String Unit) :
    Except String Unit × Nat :=
  match attempt 0 with
  | .ok v => (.ok v, 1)
  | .error _ =>
    match attempt 1 with
    | .ok v => (.ok v, 2)
    | .error e => (.error e, 2)

/-- The recycle-tracking state of the manager:
`consecutiveRecycles` and `lastRequestId` (null modelled as `none`). -/
structure RecycleState where
  consecutiveRecycles : Nat
  lastRequestId : Option String
deriving Repr, DecidableEq

/-- What one `recycleWorker` call did. -/
inductive RecycleAction where
  | recycled
  | rejectedPermanently
deriving Repr, DecidableEq

/-- JS truthiness of the optional `requestId` argument (an empty string is
falsy). -/
def truthy : Option String → Bool
  | none => false
  | some s => !(s == "")

/-- Embedding of `recycleWorker` (manager open and worker present): bump or
reset the consecutive-recycle counter, and — once the same request has
already caused more than 3 recycles — reject the pending request
permanently instead of recycling again. -/
def recycleWorker (s : RecycleState) (requestId : Option String) :
    RecycleState × RecycleAction :=
  let s1 : RecycleState :=
    if truthy requestId && (requestId == s.lastRequestId) then
      ⟨s.consecutiveRecycles + 1, s.lastRequestId⟩
    else
      ⟨1, if truthy requestId then requestId else none⟩
  if s1.consecutiveRecycles > 3 then (⟨0, none⟩, .rejectedPermanently)
  else (s1, .recycled)

/-- Iterated `recycleWorker` triggers, collecting the action of each. -/
def recycleTrace (s : RecycleState) : List (Option String) → List RecycleAction
  | [] => []
  | r :: rs =>
    (recycleWorker s r).2 :: recycleTrace (recycleWorker s r).1 rs

/-- C5.  The pool gives every request at most one automatic retry
(`MAX_RETRIES + 1 = 2` attempts), and a request id that keeps triggering
recycles is cut off: from a fresh state, four consecutive recycle triggers
for the same id produce exactly three worker recycles and then a permanent
rejection of that request instead of another retry. -/
theorem retry_once_and_reject_after_three_recycles
    (attempt : Nat → Except String Unit) (rid : String) (hrid : rid ≠ "") :
    (sendToWorkerUnqueued attempt).2 ≤ MAX_RETRIES + 1 ∧
    recycleTrace ⟨0, none⟩ [some rid, some rid, some rid, some rid] =
      [.recycled, .recycled, .recycled, .rejectedPermanently] := by
  constructor
  · rw [sendToWorkerUnqueued]
    rcases attempt 0 with _ | _ <;> simp [MAX_RETRIES]
    rcases attempt 1 with _ | _ <;> simp
  · have ht : truthy (some rid) = true := by
      simp [truthy, hrid]
    simp [recycleTrace, recycleWorker, ht]

/-- Closed instance of the C5 theorem at a concrete request id and a
first-attempt success. -/
theorem retry_once_and_reject_after_three_recycles_witness :
    (sendToWorkerUnqueued (fun _ => .ok ())).2 ≤ MAX_RETRIES + 1 ∧
    recycleTrace ⟨0, none⟩ [some "req-1", some "req-1", some "req-1", some "req-1"] =
      [.recycled, .recycled, .recycled, .rejectedPermanently] :=
  retry_once_and_reject_after_three_recycles (fun _ => .ok ()) "req-1" (by decide)

/-- Start time of the n-th enqueued task under the mutex queue.  `enqueue`
chains `run = queue.then(task, task)` and `queue = run.then(unit, unit)`,
so task `n + 1` starts exactly when task `n` settles; `d n` is the time
task `n` occupies between being posted to the worker and settling
(resolve, reject or timeout). -/
def slotStart (d : Nat → Nat) : Nat → Nat
  | 0 => 0
  | n + 1 => slotStart d n + d n

/-- Settle time of the n-th enqueued task. -/
def slotSettle (d : Nat → Nat) (n : Nat) : Nat := slotStart d n + d n

/-- Task `n` is in flight on the worker at time `t`: posted, not settled. -/
def inFlight (d : Nat → Nat) (n t : Nat) : Prop :=
  slotStart d n ≤ t ∧ t < slotSettle d n

theorem slotStart_mono (d : Nat → Nat) : ∀ i j, i ≤ j → slotStart d i ≤ slotStart d j := by
  intro i j hij
  induction j with
  | zero => simp [Nat.le_zero.mp hij]
  | succ k ih =>
    rcases Nat.lt_or_ge i (k + 1) with hk | hk
    · calc slotStart d i ≤ slotStart d k := ih (Nat.lt_succ_iff.mp hk)
        _ ≤ slotStart d k + d k := Nat.le_add_right _ _
        _ = slotStart d (k + 1) := rfl
    · have : i = k + 1 := Nat.le_antisymm hij hk
      simp [this]

/-- C4.  The mutex queue serializes the worker: a request in queue slot `j`
is posted only after every earlier slot has settled
(`slotSettle d i ≤ slotStart d j` for `i < j`), and consequently no two
enqueued requests are ever in flight at the same instant. -/
theorem mutex_queue_serializes (d : Nat → Nat) (i j t : Nat) :
    (i < j → slotSettle d i ≤ slotStart d j) ∧
    (inFlight d i t → inFlight d j t → i = j) := by
  have key : ∀ a b, a < b → slotSettle d a ≤ slotStart d b := by
    intro a b hab
    calc slotSettle d a = slotStart d (a + 1) := rfl
      _ ≤ slotStart d b := slotStart_mono d (a + 1) b hab
  refine ⟨key i j, fun hi hj => ?_⟩
  by_contra hne
  rcases Nat.lt_or_ge i j with hij | hij
  · exact absurd (Nat.lt_of_lt_of_le hi.2 (Nat.le_trans (key i j hij) hj.1))
      (Nat.lt_irrefl t)
  · have hji : j < i := Nat.lt_of_le_of_ne hij (fun h => hne h.symm)
    exact absurd (Nat.lt_of_lt_of_le hj.2 (Nat.le_trans (key j i hji) hi.1))
      (Nat.lt_irrefl t)

/-- Closed instance of the C4 theorem: with unit durations, slot 0 settles
before slot 1 starts, and a time inside slot 0 is claimed by slot 0
alone. -/
theorem mutex_queue_serializes_witness :
    slotSettle (fun _ => 1) 0 ≤ slotStart (fun _ => 1) 1 ∧ (0 : Nat) = 0 :=
  ⟨(mutex_queue_serializes (fun _ => 1) 0 1 0).1 (by decide),
    (mutex_queue_serializes (fun _ => 1) 0 0 0).2 ⟨by decide, by decide⟩
      ⟨by decide, by decide⟩⟩

/-- A settled promise is either fulfilled or rejected. -/
inductive PromiseOutcome where
  | fulfilled
  | rejected
deriving Repr, DecidableEq

/-- Whether the next task runs given the queue promise's outcome: `enqueue`
attaches the task as both callbacks of `this.queue.then(task, task)`, so it
runs in either case. -/
def thenBothRuns : PromiseOutcome → Bool
  | .fulfilled => true
  | .rejected => true

/-- Outcome of the queue promise after a task settles:
`this.queue = run.then(unit, unit)` always fulfills. -/
def queueAfter : PromiseOutcome → PromiseOutcome := fun _ => .fulfilled

/-- Number of enqueued tasks that actually run, given the current queue
outcome and each task's own outcome when run. -/
def tasksRun : PromiseOutcome → List PromiseOutcome → Nat
  | _, [] => 0
  | q, o :: os => (if thenBothRuns q then 1 else 0) + tasksRun (queueAfter o) os

/-- Embedding of the closing gate at the top of `enqueue`: once
`close()` has set `isClosing`, new requests are rejected immediately
instead of queued. -/
def enqueueGate (isClosing : Bool) : Except String Unit :=
  if isClosing then .error "WorkerManager is closing" else .ok ()

theorem tasksRun_all (q : PromiseOutcome) (os : List PromiseOutcome) :
    tasksRun q os = os.length := by
  induction os generalizing q with
  | nil => rfl
  | cons o os ih => cases q <;> simp [tasksRun, thenBothRuns, ih, Nat.add_comm]

/-- C10.  The mutex queue always advances: every enqueued task runs no
matter whether the earlier tasks fulfilled or rejected (the task is
attached as both callbacks and the queue promise is always reset to a
fulfilled one), and once `close()` has set `isClosing`, `enqueue` rejects
immediately with an error instead of queueing. -/
theorem queue_advances_and_closing_rejects :
    (∀ (q : PromiseOutcome) (os : List PromiseOutcome), tasksRun q os = os.length) ∧
    enqueueGate true = .error "WorkerManager is closing" ∧
    enqueueGate false = .ok () :=
  ⟨tasksRun_all, rfl, rfl⟩

end WorkerManager

end Osgrep
